import Mathlib

/-!
# Verification of the simple-pubsub repository

Shallow embedding of the core of the repository (an in-process
publish/subscribe event bus mediating between vending-machine state
changes and observers) together with proofs of the specification's
claims about it.

Embedded source files:
* `src/utils.ts` (present in the repository snapshot as an unnamed file):
  `LinkedList<T>` / `Queue<T>`.
* `src/app.ts`: `EventType`, the machine events, `PublishSubscribeService`
  (subscriptions, subscription timestamps, event queue, drain loop) and
  `Machine` (`_addStock`, `refillStock`, `consumeStock`).

Conventions of the embedding:
* JavaScript numbers used as integer counters/stock levels are modelled
  as `Int` (stock) and `Nat` (timestamps).  `Date.now()` is modelled as a
  logical clock on the service state that is strictly monotone per call,
  which is the spec's sanctioned reading ("logical or wall-clock tick,
  monotonically increasing per call").
* Mutation is modelled by explicit state passing; a method that mutates
  an object returns the updated object.
* `Machine._addStock` calls `pubSubService.publish` on the derived
  events; the embedding returns the list of events published by the
  call, in order.
-/

/-! ## Queue (from `utils.ts`)

The source `Queue<T>` is a singly linked list with `head` and `tail`
pointers; `tail` always aliases the last node of the chain starting at
`head`, so the observable state is exactly the list of node values from
head to tail, which is how we represent it. -/

structure Queue (T : Type) where
  items : List T
deriving Repr, DecidableEq

namespace Queue

/-- `new Queue<T>()`: `head` and `tail` start `undefined`. -/
def empty (T : Type) : Queue T := ⟨[]⟩

/-- `enqueue(item)`: if `tail` is `undefined` (empty queue) the new node
becomes both head and tail; otherwise it is linked after the current
tail.  Either way the value is appended at the tail end. -/
def enqueue {T : Type} (q : Queue T) (item : T) : Queue T :=
  match q.items with
  | [] => ⟨[item]⟩
  | _ => ⟨q.items ++ [item]⟩

/-- `dequeue()`: returns `undefined` (here `none`) if `head` is
`undefined`; otherwise returns the head value and advances `head`
(resetting `tail` as well when the queue becomes empty). -/
def dequeue {T : Type} (q : Queue T) : Option T × Queue T :=
  match q.items with
  | [] => (none, q)
  | item :: rest => (some item, ⟨rest⟩)

/-- Repeatedly `enqueue` every element of a list, left to right. -/
def enqueueAll {T : Type} (q : Queue T) (l : List T) : Queue T :=
  l.foldl enqueue q

/-- Test harness: `dequeue` up to `fuel` times, collecting the returned
items until the queue reports empty. -/
def drain {T : Type} : Nat → Queue T → List T × Queue T
  | 0, q => ([], q)
  | Nat.succ fuel, q =>
    match q.dequeue with
    | (none, q') => ([], q')
    | (some x, q') =>
      let (xs, q'') := drain fuel q'
      (x :: xs, q'')

@[simp] theorem enqueue_items {T : Type} (q : Queue T) (item : T) :
    (q.enqueue item).items = q.items ++ [item] := by
  cases h : q.items with
  | nil => simp [enqueue, h]
  | cons a rest => simp [enqueue, h]

@[simp] theorem dequeue_nil {T : Type} :
    (Queue.mk ([] : List T)).dequeue = (none, Queue.mk []) := rfl

@[simp] theorem dequeue_cons {T : Type} (x : T) (rest : List T) :
    (Queue.mk (x :: rest)).dequeue = (some x, Queue.mk rest) := rfl

theorem enqueueAll_items {T : Type} (q : Queue T) (l : List T) :
    (q.enqueueAll l).items = q.items ++ l := by
  induction l generalizing q with
  | nil => simp [enqueueAll]
  | cons x xs ih =>
    simp only [enqueueAll, List.foldl_cons] at *
    rw [ih (q.enqueue x)]
    simp

theorem drain_spec {T : Type} (q : Queue T) (fuel : Nat)
    (hfuel : q.items.length ≤ fuel) :
    q.drain fuel = (q.items, Queue.empty T) := by
  induction fuel generalizing q with
  | zero =>
    cases q with
    | mk items =>
      cases items with
      | nil => simp [drain, Queue.empty]
      | cons x rest => simp at hfuel
  | succ fuel ih =>
    cases q with
    | mk items =>
      cases items with
      | nil => simp [drain, dequeue, Queue.empty]
      | cons x rest =>
        simp only [drain, dequeue]
        rw [ih ⟨rest⟩ (by simpa using Nat.le_of_succ_le_succ hfuel)]

/-! ## EventType and events (from `app.ts`) -/

end Queue

inductive EventType where
  | Sale
  | Refill
  | LowStockWarning
  | StockLevelOk
deriving Repr, DecidableEq

/-- The string value of each enum member (`"SALE"`, `"REFILL"`, …),
as used by `_getSubscriptionKey` via `eventType.toString()`. -/
def EventType.str : EventType → String
  | .Sale => "SALE"
  | .Refill => "REFILL"
  | .LowStockWarning => "LOW_STOCK_WARNING"
  | .StockLevelOk => "STOCK_LEVEL_OK"

/-- The concrete `IEvent` objects of `app.ts`: `MachineSaleEvent`
(machine id and sold quantity), `MachineRefillEvent` (machine id and
refill quantity), `MachineLowStockWarningEvent` and
`MachineStockLevelOkEvent` (machine id only). -/
inductive MEvent where
  | sale (machineId : String) (sold : Int)
  | refill (machineId : String) (refillQty : Int)
  | lowStockWarning (machineId : String)
  | stockLevelOk (machineId : String)
deriving Repr, DecidableEq

/-- `IEvent.type()`. -/
def MEvent.type : MEvent → EventType
  | .sale _ _ => .Sale
  | .refill _ _ => .Refill
  | .lowStockWarning _ => .LowStockWarning
  | .stockLevelOk _ => .StockLevelOk

/-- `IEvent.machineId()`. -/
def MEvent.machineId : MEvent → String
  | .sale m _ => m
  | .refill m _ => m
  | .lowStockWarning m => m
  | .stockLevelOk m => m

/-! ## Machine (from `app.ts`) -/

/-- `Machine`: identity plus mutable stock level (the `pubSubService`
reference is implicit: published events are returned by the stock
operations instead of being pushed through the shared service). -/
structure Machine where
  id : String
  stockLevel : Int
deriving Repr, DecidableEq

namespace Machine

/-- `Machine.LowStockThreshold = 2` (inclusive; low stock in `[0, 2]`). -/
def LowStockThreshold : Int := 2

/-- `Machine._addStock(amount)`.  Returns the updated machine together
with the list of events the call publishes (empty, or a single
`MachineStockLevelOkEvent` / `MachineLowStockWarningEvent`). -/
def addStock (m : Machine) (amount : Int) : Machine × List MEvent :=
  if amount = 0 then
    (m, [])
  else
    let oldStockLevel := m.stockLevel
    let newStockLevel := oldStockLevel + amount
    let m' := { m with stockLevel := newStockLevel }
    if oldStockLevel ≤ LowStockThreshold ∧ newStockLevel > LowStockThreshold then
      (m', [MEvent.stockLevelOk m.id])
    else if oldStockLevel > LowStockThreshold ∧ newStockLevel ≤ LowStockThreshold then
      (m', [MEvent.lowStockWarning m.id])
    else
      (m', [])

/-- `Machine.refillStock(amount)`: `this._addStock(amount)`. -/
def refillStock (m : Machine) (amount : Int) : Machine × List MEvent :=
  m.addStock amount

/-- `Machine.consumeStock(amount)`: `this._addStock(-amount)`. -/
def consumeStock (m : Machine) (amount : Int) : Machine × List MEvent :=
  m.addStock (-amount)

/-- Apply a sequence of `_addStock` adjustments in order, collecting all
published events. -/
def addStockAll (m : Machine) : List Int → Machine × List MEvent
  | [] => (m, [])
  | a :: rest =>
    let (m1, evs1) := m.addStock a
    let (m2, evs2) := addStockAll m1 rest
    (m2, evs1 ++ evs2)

/-- `sameSideRun x as = true` iff every adjustment in `as`, applied
successively from stock level `x`, starts and ends on the same side of
the low-stock threshold. -/
def sameSideRun : Int → List Int → Bool
  | _, [] => true
  | x, a :: rest =>
    (decide ((x + a ≤ LowStockThreshold) ↔ (x ≤ LowStockThreshold))) &&
      sameSideRun (x + a) rest

@[simp] theorem addStock_fst_id (m : Machine) (amount : Int) :
    (m.addStock amount).1.id = m.id := by
  unfold addStock
  dsimp only
  split
  · rfl
  · split
    · rfl
    · split <;> rfl

@[simp] theorem addStock_fst_stockLevel (m : Machine) (amount : Int) :
    (m.addStock amount).1.stockLevel = m.stockLevel + amount := by
  unfold addStock
  dsimp only
  split
  · simp [*]
  · split
    · rfl
    · split <;> rfl

theorem addStock_snd_of_sameSide (m : Machine) (amount : Int)
    (h : (m.stockLevel + amount ≤ LowStockThreshold) ↔ (m.stockLevel ≤ LowStockThreshold)) :
    (m.addStock amount).2 = [] := by
  unfold addStock
  dsimp only
  split
  · rfl
  · split
    · next hcross => exact absurd (h.mpr hcross.1) (by omega)
    · split
      · next hcross => exact absurd (h.mp hcross.2) (by omega)
      · rfl

theorem addStockAll_snd_of_sameSideRun (m : Machine) (amounts : List Int)
    (h : sameSideRun m.stockLevel amounts = true) :
    (m.addStockAll amounts).2 = [] := by
  induction amounts generalizing m with
  | nil => rfl
  | cons a rest ih =>
    simp only [sameSideRun, Bool.and_eq_true, decide_eq_true_eq] at h
    simp only [addStockAll]
    rw [addStock_snd_of_sameSide m a h.1]
    have hrest := ih (m.addStock a).1 (by rw [addStock_fst_stockLevel]; exact h.2)
    simpa using hrest

end Machine

/-! ## PublishSubscribeService (from `app.ts`)

JavaScript `Map` preserves key insertion order and `Set` preserves
element insertion order; both are modelled as association lists /
lists with the corresponding replace-or-append and add-if-absent
operations.  Object reference identity of `ISubscriber` instances is
modelled by a numeric `ref`; `toString()` is the `str` field (two
distinct instances may share a `str`, as the instances of one
subscriber class do in the source). -/

structure Subscriber where
  ref : Nat
  str : String
deriving Repr, DecidableEq

/-- `_getSubscriptionKey(eventType, subscriber)` returns the template
string `` `${eventType.toString()}-${subscriber.toString()}` ``.  Since
the four enum strings are such that no key of one type can equal a key
of another, the key is modelled as the pair of its two components. -/
def subscriptionKey (eventType : EventType) (subscriber : Subscriber) :
    EventType × String :=
  (eventType, subscriber.str)

/-- First-match lookup in an association list (`Map.get`). -/
def alistGet {α β : Type} [DecidableEq α] : List (α × β) → α → Option β
  | [], _ => none
  | (k', v') :: rest, k => if k' = k then some v' else alistGet rest k

/-- Replace-or-append update of an association list (`Map.set`). -/
def alistSet {α β : Type} [DecidableEq α] : List (α × β) → α → β → List (α × β)
  | [], k, v => [(k, v)]
  | (k', v') :: rest, k, v =>
    if k' = k then (k, v) :: rest else (k', v') :: alistSet rest k v

/-- Key removal from an association list (`Map.delete`). -/
def alistErase {α β : Type} [DecidableEq α] (l : List (α × β)) (k : α) :
    List (α × β) :=
  l.filter (fun p => decide (p.1 ≠ k))

/-- The mutable state of a `PublishSubscribeService` instance:
`_subscriptions` (`Map<EventType, Set<ISubscriber>>`),
`_subscriptionTimestamps` (`Map<key, number>`), `_eventQueue`, and the
logical clock backing `Date.now()`. -/
structure SState where
  subscriptions : List (EventType × List Subscriber)
  subscriptionTimestamps : List ((EventType × String) × Nat)
  eventQueue : Queue MEvent
  clock : Nat
deriving Repr, DecidableEq

/-- `new PublishSubscribeService()` (with the logical clock at 0). -/
def SState.initial : SState := ⟨[], [], Queue.empty MEvent, 0⟩

/-- `subscribe(eventType, handler)`: add the handler to the type's set
(creating the set if the type is new; `Set.add` is a no-op on an
already-present member), then record `Date.now()` under the
subscription key only if the key is not yet present. -/
def SState.subscribe (st : SState) (eventType : EventType) (handler : Subscriber) :
    SState :=
  let subs' :=
    match alistGet st.subscriptions eventType with
    | none => alistSet st.subscriptions eventType [handler]
    | some subscribers =>
      alistSet st.subscriptions eventType
        (if handler ∈ subscribers then subscribers else subscribers ++ [handler])
  let key := subscriptionKey eventType handler
  if (alistGet st.subscriptionTimestamps key).isSome then
    { st with subscriptions := subs' }
  else
    { st with
        subscriptions := subs',
        subscriptionTimestamps := st.subscriptionTimestamps ++ [(key, st.clock)],
        clock := st.clock + 1 }

/-- `unsubscribe(eventType, handler)`: if the type has a subscriber set,
delete the handler from it (`Set.delete`, no-op when absent) and delete
the handler's subscription-key entry from the timestamp map (`Map.delete`,
no-op when absent); otherwise do nothing. -/
def SState.unsubscribe (st : SState) (eventType : EventType) (handler : Subscriber) :
    SState :=
  match alistGet st.subscriptions eventType with
  | none => st
  | some subscribers =>
    { st with
        subscriptions :=
          alistSet st.subscriptions eventType (subscribers.erase handler),
        subscriptionTimestamps :=
          alistErase st.subscriptionTimestamps (subscriptionKey eventType handler) }

/-- The observable behaviour of `ISubscriber.handle`: the list of events
the handler itself publishes (in order) when invoked on an event.
Handlers in the source mutate machines and publish derived events; only
the publishes touch the service state. -/
def Behavior : Type := Subscriber → MEvent → List MEvent

/-- A behaviour whose handlers never publish. -/
def noPublish : Behavior := fun _ _ => []

/-- Trace of observable dispatcher actions, in chronological order:
`enq e` (an event is pushed onto the queue by `publish`), `deliver e`
(an event is dequeued by the drain loop and `_handle` begins), and
`invoke s e` (`handler.handle(event)` is called on subscriber `s`). -/
inductive TraceItem where
  | enq (e : MEvent)
  | deliver (e : MEvent)
  | invoke (s : Subscriber) (e : MEvent)
deriving Repr, DecidableEq

/-- The events enqueued in a trace, in order. -/
def enqs : List TraceItem → List MEvent
  | [] => []
  | TraceItem.enq e :: tr => e :: enqs tr
  | _ :: tr => enqs tr

/-- The events delivered (dequeued and handled) in a trace, in order. -/
def delivers : List TraceItem → List MEvent
  | [] => []
  | TraceItem.deliver e :: tr => e :: delivers tr
  | _ :: tr => delivers tr

mutual

/-- `publish(event)`: enqueue the event, then run `_processEvents`.
`fuel` bounds the total amount of work; the returned `Bool` is `true`
exactly when the computation ran to completion without exhausting the
fuel (the real loop has no such bound; every claim below is stated for
completed runs). -/
def publishF (beh : Behavior) : Nat → SState → MEvent → SState × List TraceItem × Bool
  | 0, st, _ => (st, [], false)
  | Nat.succ fuel, st, e =>
    let st1 := { st with eventQueue := st.eventQueue.enqueue e }
    let r := processEvents beh fuel st1
    (r.1, TraceItem.enq e :: r.2.1, r.2.2)

/-- `_processEvents()`: dequeue and `_handle` events until the queue
reports empty. -/
def processEvents (beh : Behavior) : Nat → SState → SState × List TraceItem × Bool
  | 0, st => (st, [], false)
  | Nat.succ fuel, st =>
    match st.eventQueue.dequeue with
    | (none, _) => (st, [], true)
    | (some e, q) =>
      let r1 := handleEvent beh fuel { st with eventQueue := q } e
      let r2 := processEvents beh fuel r1.1
      (r2.1, TraceItem.deliver e :: (r1.2.1 ++ r2.2.1), r1.2.2 && r2.2.2)

/-- `_handle(event)`: capture `handleTime = Date.now()` once, look up
the subscriber set for the event's type, and walk it delivering to each
eligible subscriber. -/
def handleEvent (beh : Behavior) : Nat → SState → MEvent → SState × List TraceItem × Bool
  | 0, st, _ => (st, [], false)
  | Nat.succ fuel, st, e =>
    let handleTime := st.clock
    let st1 := { st with clock := st.clock + 1 }
    match alistGet st1.subscriptions e.type with
    | none => (st1, [], true)
    | some handlers => deliverAll beh fuel st1 handlers handleTime e

/-- The `forEach` body of `_handle`: for each handler, look up its
subscription timestamp and call `handler.handle(event)` only when the
timestamp exists and is `≤ handleTime`; a handler invocation performs
the publishes prescribed by its behaviour. -/
def deliverAll (beh : Behavior) :
    Nat → SState → List Subscriber → Nat → MEvent → SState × List TraceItem × Bool
  | 0, st, _, _, _ => (st, [], false)
  | Nat.succ _, st, [], _, _ => (st, [], true)
  | Nat.succ fuel, st, handler :: rest, handleTime, e =>
    match alistGet st.subscriptionTimestamps (subscriptionKey e.type handler) with
    | some subscriptionTime =>
      if subscriptionTime ≤ handleTime then
        let r1 := publishList beh fuel st (beh handler e)
        let r2 := deliverAll beh fuel r1.1 rest handleTime e
        (r2.1, TraceItem.invoke handler e :: (r1.2.1 ++ r2.2.1), r1.2.2 && r2.2.2)
      else
        deliverAll beh fuel st rest handleTime e
    | none => deliverAll beh fuel st rest handleTime e

/-- A sequence of `publish` calls, one after the other (used both for a
handler's own publishes and for top-level publish sequences). -/
def publishList (beh : Behavior) :
    Nat → SState → List MEvent → SState × List TraceItem × Bool
  | 0, st, _ => (st, [], false)
  | Nat.succ _, st, [] => (st, [], true)
  | Nat.succ fuel, st, e :: rest =>
    let r1 := publishF beh fuel st e
    let r2 := publishList beh fuel r1.1 rest
    (r2.1, r1.2.1 ++ r2.2.1, r1.2.2 && r2.2.2)

end

/-! ## Claims about `Machine` and `Queue` -/

/-- C1: for every machine and every single stock adjustment with nonzero
delta, `_addStock` publishes exactly one StockLevelOk event if
`oldStockLevel <= LowStockThreshold` and
`newStockLevel > LowStockThreshold`, exactly one LowStockWarning event
if `oldStockLevel > LowStockThreshold` and
`newStockLevel <= LowStockThreshold`, and no derived event otherwise;
any sequence of adjustments each of which starts and ends on the same
side of the threshold publishes no derived event at all. -/
theorem claim_C1 (m : Machine) (amount : Int) (hamount : amount ≠ 0) :
    ((m.stockLevel ≤ Machine.LowStockThreshold ∧
        m.stockLevel + amount > Machine.LowStockThreshold) →
      (m.addStock amount).2 = [MEvent.stockLevelOk m.id]) ∧
    ((m.stockLevel > Machine.LowStockThreshold ∧
        m.stockLevel + amount ≤ Machine.LowStockThreshold) →
      (m.addStock amount).2 = [MEvent.lowStockWarning m.id]) ∧
    (((m.stockLevel + amount ≤ Machine.LowStockThreshold) ↔
        (m.stockLevel ≤ Machine.LowStockThreshold)) →
      (m.addStock amount).2 = []) ∧
    (∀ amounts : List Int, Machine.sameSideRun m.stockLevel amounts = true →
      (m.addStockAll amounts).2 = []) := by
  refine ⟨?_, ?_, ?_, ?_⟩
  · intro hup
    unfold Machine.addStock
    dsimp only
    rw [if_neg hamount, if_pos ⟨hup.1, hup.2⟩]
  · intro hdown
    unfold Machine.addStock
    dsimp only
    rw [if_neg hamount, if_neg (by omega), if_pos ⟨hdown.1, hdown.2⟩]
  · intro hsame
    exact Machine.addStock_snd_of_sameSide m amount hsame
  · intro amounts hrun
    exact Machine.addStockAll_snd_of_sameSideRun m amounts hrun

/-- Witness for C1 on a concrete machine: stock 10, sale of 8 crosses to
at/below the threshold and publishes exactly one LowStockWarning; two
further same-side sales of 1 publish nothing. -/
theorem claim_C1_witness :
    ((Machine.mk "001" 2).addStock 1).2 = [MEvent.stockLevelOk "001"] ∧
    ((Machine.mk "001" 10).addStock (-8)).2 = [MEvent.lowStockWarning "001"] ∧
    ((Machine.mk "001" 2).addStockAll [-1, -1]).2 = [] := by
  refine ⟨?_, ?_, ?_⟩
  · exact (claim_C1 (Machine.mk "001" 2) 1 (by decide)).1 (by decide)
  · exact (claim_C1 (Machine.mk "001" 10) (-8) (by decide)).2.1 (by decide)
  · exact (claim_C1 (Machine.mk "001" 2) 1 (by decide)).2.2.2 [-1, -1] (by decide)

/-- C6: the `Queue` is strict FIFO: `enqueue` appends the item at the
tail, `dequeue` removes and returns the current head and returns `none`
on an empty queue, draining returns exactly the items in insertion
order, and a drained queue is the empty queue and can be refilled and
drained again. -/
theorem claim_C6 {T : Type} (q : Queue T) (x : T) (xs : List T) (l : List T)
    (fuel fuel' : Nat)
    (hfuel : q.items.length ≤ fuel) (hfuel' : l.length ≤ fuel') :
    (q.enqueue x).items = q.items ++ [x] ∧
    (Queue.empty T).dequeue = (none, Queue.empty T) ∧
    (Queue.mk (x :: xs)).dequeue = (some x, Queue.mk xs) ∧
    q.drain fuel = (q.items, Queue.empty T) ∧
    ((Queue.empty T).enqueueAll l).drain fuel' = (l, Queue.empty T) ∧
    ((q.drain fuel).2.enqueueAll l).drain fuel' = (l, Queue.empty T) := by
  have hq := Queue.drain_spec q fuel hfuel
  have hl : ∀ q₀ : Queue T, q₀.items = [] →
      (q₀.enqueueAll l).drain fuel' = (l, Queue.empty T) := by
    intro q₀ h₀
    have : (q₀.enqueueAll l).items = l := by
      rw [Queue.enqueueAll_items, h₀]; simp
    have := Queue.drain_spec (q₀.enqueueAll l) fuel' (by rw [this]; exact hfuel')
    rwa [‹(q₀.enqueueAll l).items = l›] at this
  refine ⟨Queue.enqueue_items q x, rfl, rfl, hq, hl _ rfl, ?_⟩
  exact hl (q.drain fuel).2 (by rw [hq]; rfl)

/-- Witness for C6 at a concrete queue of naturals. -/
theorem claim_C6_witness :
    ((Queue.mk [1, 2]).enqueue 1).items = [1, 2] ++ [1] ∧
    (Queue.empty Nat).dequeue = (none, Queue.empty Nat) ∧
    (Queue.mk (1 :: [2])).dequeue = (some 1, Queue.mk [2]) ∧
    (Queue.mk [1, 2]).drain 5 = ([1, 2], Queue.empty Nat) ∧
    ((Queue.empty Nat).enqueueAll [7, 8, 9]).drain 3 = ([7, 8, 9], Queue.empty Nat) ∧
    (((Queue.mk [1, 2]).drain 5).2.enqueueAll [7, 8, 9]).drain 3 =
      ([7, 8, 9], Queue.empty Nat) :=
  claim_C6 (Queue.mk [1, 2]) 1 [2] [7, 8, 9] 5 3 (by decide) (by decide)

/-- C7: for every machine and non-negative amount, `consumeStock`
decreases the stock level by exactly that amount (and never raises: the
embedding is a total function); no clamping or underflow protection is
applied, so the equation holds even when the result is negative. -/
theorem claim_C7 (m : Machine) (amount : Int) (hamount : 0 ≤ amount) :
    (m.consumeStock amount).1.stockLevel = m.stockLevel - amount ∧
    (m.consumeStock amount).1.id = m.id := by
  unfold Machine.consumeStock
  rw [Machine.addStock_fst_stockLevel, Machine.addStock_fst_id]
  exact ⟨by omega, rfl⟩

/-- Witness for C7: consuming 15 from stock 10 yields stock -5. -/
theorem claim_C7_witness :
    ((Machine.mk "001" 10).consumeStock 15).1.stockLevel = 10 - 15 ∧
    ((Machine.mk "001" 10).consumeStock 15).1.id = "001" :=
  claim_C7 (Machine.mk "001" 10) 15 (by decide)

/-- C8: an adjustment with delta zero is a no-op: both `consumeStock 0`
and `refillStock 0` leave the machine unchanged and publish nothing. -/
theorem claim_C8 (m : Machine) :
    m.consumeStock 0 = (m, []) ∧ m.refillStock 0 = (m, []) := by
  constructor
  · unfold Machine.consumeStock
    rw [show (-0 : Int) = 0 from rfl]
    unfold Machine.addStock
    simp
  · unfold Machine.refillStock Machine.addStock
    simp

/-- C10: `consumeStock a` followed by `refillStock a` restores the stock
level, and symmetrically, for every amount and regardless of which
derived events are published along the way. -/
theorem claim_C10 (m : Machine) (a : Int) :
    ((m.consumeStock a).1.refillStock a).1.stockLevel = m.stockLevel ∧
    ((m.refillStock a).1.consumeStock a).1.stockLevel = m.stockLevel := by
  unfold Machine.consumeStock Machine.refillStock
  rw [Machine.addStock_fst_stockLevel, Machine.addStock_fst_stockLevel,
    Machine.addStock_fst_stockLevel, Machine.addStock_fst_stockLevel]
  omega

/-! ## Association-list lemmas -/

section AList

variable {α β : Type} [DecidableEq α]

theorem alistGet_mem {l : List (α × β)} {k : α} {v : β}
    (h : alistGet l k = some v) : (k, v) ∈ l := by
  induction l with
  | nil => simp [alistGet] at h
  | cons p rest ih =>
    obtain ⟨k', v'⟩ := p
    simp only [alistGet] at h
    split at h
    · next heq =>
      subst heq
      injection h with h
      subst h
      exact List.mem_cons_self _ _
    · exact List.mem_cons_of_mem _ (ih h)

@[simp] theorem alistGet_alistSet_self (l : List (α × β)) (k : α) (v : β) :
    alistGet (alistSet l k v) k = some v := by
  induction l with
  | nil => simp [alistGet, alistSet]
  | cons p rest ih =>
    obtain ⟨k', v'⟩ := p
    simp only [alistSet]
    split
    · simp [alistGet]
    · next hne => simp only [alistGet, if_neg hne, ih]

theorem alistGet_alistSet_ne (l : List (α × β)) {k k' : α} (v : β)
    (h : k' ≠ k) : alistGet (alistSet l k v) k' = alistGet l k' := by
  induction l with
  | nil =>
    simp only [alistSet, alistGet]
    rw [if_neg (fun hh => h hh.symm)]
  | cons p rest ih =>
    obtain ⟨k'', v''⟩ := p
    simp only [alistSet]
    split
    · next heq =>
      subst heq
      simp only [alistGet]
      rw [if_neg (fun hh => h hh.symm), if_neg (fun hh => h hh.symm)]
    · simp only [alistGet]
      split
      · rfl
      · exact ih

theorem alistSet_of_get_eq {l : List (α × β)} {k : α} {v : β}
    (h : alistGet l k = some v) : alistSet l k v = l := by
  induction l with
  | nil => simp [alistGet] at h
  | cons p rest ih =>
    obtain ⟨k', v'⟩ := p
    simp only [alistGet] at h
    simp only [alistSet]
    split at h
    · next heq =>
      subst heq
      injection h with h
      subst h
      simp
    · next hne =>
      rw [if_neg hne, ih h]

theorem alistSet_alistSet (l : List (α × β)) (k : α) (v w : β) :
    alistSet (alistSet l k v) k w = alistSet l k w := by
  induction l with
  | nil => simp [alistSet]
  | cons p rest ih =>
    obtain ⟨k', v'⟩ := p
    simp only [alistSet]
    split
    · simp [alistSet]
    · next hne =>
      simp only [alistSet, if_neg hne, ih]

theorem alistGet_append_left {l : List (α × β)} {k : α} {v : β}
    (l₂ : List (α × β)) (h : alistGet l k = some v) :
    alistGet (l ++ l₂) k = some v := by
  induction l with
  | nil => simp [alistGet] at h
  | cons p rest ih =>
    obtain ⟨k', v'⟩ := p
    simp only [alistGet] at h ⊢
    split at h
    · next heq => rw [if_pos heq]; exact h
    · next hne => rw [if_neg hne]; exact ih h

theorem alistGet_append_right {l : List (α × β)} {k : α}
    (l₂ : List (α × β)) (h : alistGet l k = none) :
    alistGet (l ++ l₂) k = alistGet l₂ k := by
  induction l with
  | nil => simp
  | cons p rest ih =>
    obtain ⟨k', v'⟩ := p
    simp only [alistGet] at h ⊢
    split at h
    · exact absurd h (by simp)
    · next hne => rw [if_neg hne]; exact ih h

@[simp] theorem alistGet_alistErase_self (l : List (α × β)) (k : α) :
    alistGet (alistErase l k) k = none := by
  induction l with
  | nil => rfl
  | cons p rest ih =>
    obtain ⟨k', v'⟩ := p
    simp only [alistErase, List.filter_cons] at ih ⊢
    split
    · next hkeep =>
      simp only [decide_eq_true_eq] at hkeep
      simp only [alistGet, if_neg (fun hh => hkeep hh)]
      exact ih
    · exact ih

theorem alistGet_alistErase_ne (l : List (α × β)) {k k' : α}
    (h : k' ≠ k) : alistGet (alistErase l k) k' = alistGet l k' := by
  induction l with
  | nil => rfl
  | cons p rest ih =>
    obtain ⟨k'', v''⟩ := p
    simp only [alistErase, List.filter_cons] at ih ⊢
    split
    · simp only [alistGet]
      split
      · rfl
      · exact ih
    · next hdrop =>
      simp only [decide_eq_true_eq, not_not] at hdrop
      simp only [alistGet]
      rw [if_neg (fun hh : k'' = k' => h (hh ▸ hdrop ▸ rfl))]
      exact ih

theorem alistErase_of_get_none {l : List (α × β)} {k : α}
    (h : alistGet l k = none) : alistErase l k = l := by
  induction l with
  | nil => rfl
  | cons p rest ih =>
    obtain ⟨k', v'⟩ := p
    simp only [alistGet] at h
    split at h
    · exact absurd h (by simp)
    · next hne =>
      simp only [alistErase, List.filter_cons] at ih ⊢
      rw [if_pos (by simpa using hne), ih h]

theorem alistErase_alistErase (l : List (α × β)) (k : α) :
    alistErase (alistErase l k) k = alistErase l k := by
  simp [alistErase, List.filter_filter]

end AList

/-! ## Trace lemmas -/

@[simp] theorem enqs_nil : enqs [] = [] := rfl
@[simp] theorem enqs_enq (e : MEvent) (tr : List TraceItem) :
    enqs (TraceItem.enq e :: tr) = e :: enqs tr := rfl
@[simp] theorem enqs_deliver (e : MEvent) (tr : List TraceItem) :
    enqs (TraceItem.deliver e :: tr) = enqs tr := rfl
@[simp] theorem enqs_invoke (s : Subscriber) (e : MEvent) (tr : List TraceItem) :
    enqs (TraceItem.invoke s e :: tr) = enqs tr := rfl

@[simp] theorem delivers_nil : delivers [] = [] := rfl
@[simp] theorem delivers_enq (e : MEvent) (tr : List TraceItem) :
    delivers (TraceItem.enq e :: tr) = delivers tr := rfl
@[simp] theorem delivers_deliver (e : MEvent) (tr : List TraceItem) :
    delivers (TraceItem.deliver e :: tr) = e :: delivers tr := rfl
@[simp] theorem delivers_invoke (s : Subscriber) (e : MEvent) (tr : List TraceItem) :
    delivers (TraceItem.invoke s e :: tr) = delivers tr := rfl

@[simp] theorem enqs_append (t₁ t₂ : List TraceItem) :
    enqs (t₁ ++ t₂) = enqs t₁ ++ enqs t₂ := by
  induction t₁ with
  | nil => rfl
  | cons it tr ih => cases it <;> simp [ih]

@[simp] theorem delivers_append (t₁ t₂ : List TraceItem) :
    delivers (t₁ ++ t₂) = delivers t₁ ++ delivers t₂ := by
  induction t₁ with
  | nil => rfl
  | cons it tr ih => cases it <;> simp [ih]

/-! ## Dispatcher invariants -/

/-- The drain loop and handler invocations never touch the registry:
`_subscriptions` and `_subscriptionTimestamps` are unchanged by
`publish` and everything it calls (handlers only publish). -/
theorem preserveAll (fuel : Nat) :
    (∀ beh st e,
      (publishF beh fuel st e).1.subscriptions = st.subscriptions ∧
      (publishF beh fuel st e).1.subscriptionTimestamps = st.subscriptionTimestamps) ∧
    (∀ beh st,
      (processEvents beh fuel st).1.subscriptions = st.subscriptions ∧
      (processEvents beh fuel st).1.subscriptionTimestamps = st.subscriptionTimestamps) ∧
    (∀ beh st e,
      (handleEvent beh fuel st e).1.subscriptions = st.subscriptions ∧
      (handleEvent beh fuel st e).1.subscriptionTimestamps = st.subscriptionTimestamps) ∧
    (∀ beh st handlers ht e,
      (deliverAll beh fuel st handlers ht e).1.subscriptions = st.subscriptions ∧
      (deliverAll beh fuel st handlers ht e).1.subscriptionTimestamps = st.subscriptionTimestamps) ∧
    (∀ beh st es,
      (publishList beh fuel st es).1.subscriptions = st.subscriptions ∧
      (publishList beh fuel st es).1.subscriptionTimestamps = st.subscriptionTimestamps) := by
  induction fuel with
  | zero =>
    exact ⟨fun beh st e => ⟨rfl, rfl⟩, fun beh st => ⟨rfl, rfl⟩,
      fun beh st e => ⟨rfl, rfl⟩, fun beh st handlers ht e => ⟨rfl, rfl⟩,
      fun beh st es => ⟨rfl, rfl⟩⟩
  | succ fuel ih =>
    obtain ⟨ihPub, ihProc, ihHan, ihDel, ihPL⟩ := ih
    refine ⟨?_, ?_, ?_, ?_, ?_⟩
    · intro beh st e
      simp only [publishF]
      exact ihProc beh _
    · intro beh st
      obtain ⟨subs, tss, ⟨items⟩, clk⟩ := st
      cases items with
      | nil => exact ⟨rfl, rfl⟩
      | cons e rest =>
        simp only [processEvents, Queue.dequeue]
        obtain ⟨h1s, h1t⟩ := ihHan beh ⟨subs, tss, ⟨rest⟩, clk⟩ e
        obtain ⟨h2s, h2t⟩ :=
          ihProc beh (handleEvent beh fuel ⟨subs, tss, ⟨rest⟩, clk⟩ e).1
        exact ⟨h2s.trans h1s, h2t.trans h1t⟩
    · intro beh st e
      simp only [handleEvent]
      split
      · exact ⟨rfl, rfl⟩
      · exact ihDel beh _ _ st.clock e
    · intro beh st handlers ht e
      cases handlers with
      | nil => exact ⟨rfl, rfl⟩
      | cons handler rest =>
        simp only [deliverAll]
        split
        · split
          · obtain ⟨h1s, h1t⟩ := ihPL beh st (beh handler e)
            obtain ⟨h2s, h2t⟩ :=
              ihDel beh (publishList beh fuel st (beh handler e)).1 rest ht e
            exact ⟨h2s.trans h1s, h2t.trans h1t⟩
          · exact ihDel beh st rest ht e
        · exact ihDel beh st rest ht e
    · intro beh st es
      cases es with
      | nil => exact ⟨rfl, rfl⟩
      | cons e rest =>
        simp only [publishList]
        obtain ⟨h1s, h1t⟩ := ihPub beh st e
        obtain ⟨h2s, h2t⟩ := ihPL beh (publishF beh fuel st e).1 rest
        exact ⟨h2s.trans h1s, h2t.trans h1t⟩

/-- FIFO queue invariant: across every dispatcher computation, the
initial queue contents followed by the events enqueued during the
computation equal the events delivered during the computation followed
by the final queue contents. -/
theorem fifoAll (fuel : Nat) :
    (∀ beh st e,
      st.eventQueue.items ++ enqs (publishF beh fuel st e).2.1 =
        delivers (publishF beh fuel st e).2.1 ++
          (publishF beh fuel st e).1.eventQueue.items) ∧
    (∀ beh st,
      st.eventQueue.items ++ enqs (processEvents beh fuel st).2.1 =
        delivers (processEvents beh fuel st).2.1 ++
          (processEvents beh fuel st).1.eventQueue.items) ∧
    (∀ beh st e,
      st.eventQueue.items ++ enqs (handleEvent beh fuel st e).2.1 =
        delivers (handleEvent beh fuel st e).2.1 ++
          (handleEvent beh fuel st e).1.eventQueue.items) ∧
    (∀ beh st handlers ht e,
      st.eventQueue.items ++ enqs (deliverAll beh fuel st handlers ht e).2.1 =
        delivers (deliverAll beh fuel st handlers ht e).2.1 ++
          (deliverAll beh fuel st handlers ht e).1.eventQueue.items) ∧
    (∀ beh st es,
      st.eventQueue.items ++ enqs (publishList beh fuel st es).2.1 =
        delivers (publishList beh fuel st es).2.1 ++
          (publishList beh fuel st es).1.eventQueue.items) := by
  induction fuel with
  | zero =>
    exact ⟨fun beh st e => by simp [publishF], fun beh st => by simp [processEvents],
      fun beh st e => by simp [handleEvent],
      fun beh st handlers ht e => by simp [deliverAll],
      fun beh st es => by simp [publishList]⟩
  | succ fuel ih =>
    obtain ⟨ihPub, ihProc, ihHan, ihDel, ihPL⟩ := ih
    refine ⟨?_, ?_, ?_, ?_, ?_⟩
    · intro beh st e
      simp only [publishF, enqs_enq, delivers_enq]
      have h := ihProc beh { st with eventQueue := st.eventQueue.enqueue e }
      simp only [Queue.enqueue_items] at h
      simpa using h
    · intro beh st
      obtain ⟨subs, tss, ⟨items⟩, clk⟩ := st
      cases items with
      | nil => simp [processEvents, Queue.dequeue]
      | cons e rest =>
        simp only [processEvents, Queue.dequeue, delivers_deliver, enqs_deliver,
          enqs_append, delivers_append]
        have h1 := ihHan beh ⟨subs, tss, ⟨rest⟩, clk⟩ e
        have h2 := ihProc beh (handleEvent beh fuel ⟨subs, tss, ⟨rest⟩, clk⟩ e).1
        simp only [List.cons_append]
        congr 1
        rw [← List.append_assoc, h1, List.append_assoc, h2, ← List.append_assoc]
    · intro beh st e
      simp only [handleEvent]
      split
      · simp
      · next handlers _ =>
        exact ihDel beh { st with clock := st.clock + 1 } handlers st.clock e
    · intro beh st handlers ht e
      cases handlers with
      | nil => simp [deliverAll]
      | cons handler rest =>
        simp only [deliverAll]
        split
        · split
          · simp only [enqs_invoke, delivers_invoke, enqs_append, delivers_append]
            have h1 := ihPL beh st (beh handler e)
            have h2 :=
              ihDel beh (publishList beh fuel st (beh handler e)).1 rest ht e
            rw [← List.append_assoc, h1, List.append_assoc, h2, ← List.append_assoc]
          · exact ihDel beh st rest ht e
        · exact ihDel beh st rest ht e
    · intro beh st es
      cases es with
      | nil => simp [publishList]
      | cons e rest =>
        simp only [publishList, enqs_append, delivers_append]
        have h1 := ihPub beh st e
        have h2 := ihPL beh (publishF beh fuel st e).1 rest
        rw [← List.append_assoc, h1, List.append_assoc, h2, ← List.append_assoc]

/-- When the drain loop reports completion, it has observed an empty
queue: the final state's queue is empty. -/
theorem processEvents_ok_empty (fuel : Nat) :
    ∀ beh st, (processEvents beh fuel st).2.2 = true →
      (processEvents beh fuel st).1.eventQueue.items = [] := by
  induction fuel with
  | zero => intro beh st h; simp [processEvents] at h
  | succ fuel ih =>
    intro beh st
    obtain ⟨subs, tss, ⟨items⟩, clk⟩ := st
    cases items with
    | nil => intro _; rfl
    | cons e rest =>
      intro h
      simp only [processEvents, Queue.dequeue] at h ⊢
      rw [Bool.and_eq_true] at h
      exact ih beh _ h.2

/-- `publish` version of `processEvents_ok_empty`. -/
theorem publishF_ok_empty (fuel : Nat) (beh : Behavior) (st : SState) (e : MEvent)
    (h : (publishF beh fuel st e).2.2 = true) :
    (publishF beh fuel st e).1.eventQueue.items = [] := by
  cases fuel with
  | zero => simp [publishF] at h
  | succ fuel =>
    simp only [publishF] at h ⊢
    exact processEvents_ok_empty fuel beh _ h

/-- A handler is only ever invoked when its subscription key has a
recorded timestamp at the time of invocation; since the drain loop never
modifies the timestamp map, the key must already be present in the state
the computation started from. -/
theorem invokeKeyAll (fuel : Nat) :
    (∀ beh st e s e', TraceItem.invoke s e' ∈ (publishF beh fuel st e).2.1 →
      (alistGet st.subscriptionTimestamps (subscriptionKey e'.type s)).isSome = true) ∧
    (∀ beh st s e', TraceItem.invoke s e' ∈ (processEvents beh fuel st).2.1 →
      (alistGet st.subscriptionTimestamps (subscriptionKey e'.type s)).isSome = true) ∧
    (∀ beh st e s e', TraceItem.invoke s e' ∈ (handleEvent beh fuel st e).2.1 →
      (alistGet st.subscriptionTimestamps (subscriptionKey e'.type s)).isSome = true) ∧
    (∀ beh st handlers ht e s e',
      TraceItem.invoke s e' ∈ (deliverAll beh fuel st handlers ht e).2.1 →
      (alistGet st.subscriptionTimestamps (subscriptionKey e'.type s)).isSome = true) ∧
    (∀ beh st es s e', TraceItem.invoke s e' ∈ (publishList beh fuel st es).2.1 →
      (alistGet st.subscriptionTimestamps (subscriptionKey e'.type s)).isSome = true) := by
  induction fuel with
  | zero =>
    refine ⟨?_, ?_, ?_, ?_, ?_⟩ <;> intro beh st
    · intro e s e' h; simp [publishF] at h
    · intro s e' h; simp [processEvents] at h
    · intro e s e' h; simp [handleEvent] at h
    · intro handlers ht e s e' h; simp [deliverAll] at h
    · intro es s e' h; simp [publishList] at h
  | succ fuel ih =>
    obtain ⟨ihPub, ihProc, ihHan, ihDel, ihPL⟩ := ih
    refine ⟨?_, ?_, ?_, ?_, ?_⟩
    · intro beh st e s e' h
      simp only [publishF, List.mem_cons] at h
      rcases h with h | h
      · exact absurd h (by simp)
      · exact ihProc beh { st with eventQueue := st.eventQueue.enqueue e } s e' h
    · intro beh st s e' h
      obtain ⟨subs, tss, ⟨items⟩, clk⟩ := st
      cases items with
      | nil => simp [processEvents, Queue.dequeue] at h
      | cons e rest =>
        simp only [processEvents, Queue.dequeue, List.mem_cons, List.mem_append] at h
        rcases h with h | h | h
        · exact absurd h (by simp)
        · exact ihHan beh ⟨subs, tss, ⟨rest⟩, clk⟩ e s e' h
        · have hkey :=
            ihProc beh (handleEvent beh fuel ⟨subs, tss, ⟨rest⟩, clk⟩ e).1 s e' h
          rwa [(preserveAll fuel).2.2.1 beh ⟨subs, tss, ⟨rest⟩, clk⟩ e |>.2] at hkey
    · intro beh st e s e' h
      simp only [handleEvent] at h
      rcases hmatch : alistGet st.subscriptions e.type with _ | handlers
      · rw [hmatch] at h
        simp at h
      · rw [hmatch] at h
        exact ihDel beh { st with clock := st.clock + 1 } handlers st.clock e s e' h
    · intro beh st handlers ht e s e' h
      cases handlers with
      | nil =>
        simp [deliverAll] at h
      | cons handler rest =>
        simp only [deliverAll] at h
        split at h
        · rename_i subscriptionTime hmatch
          split at h
          · simp only [List.mem_cons, List.mem_append] at h
            rcases h with h | h | h
            · obtain ⟨hs, he⟩ := TraceItem.invoke.inj h
              subst hs
              subst he
              rw [hmatch]
              rfl
            · exact ihPL beh st (beh handler e) s e' h
            · have hkey :=
                ihDel beh (publishList beh fuel st (beh handler e)).1 rest ht e s e' h
              rwa [(preserveAll fuel).2.2.2.2 beh st (beh handler e) |>.2] at hkey
          · exact ihDel beh st rest ht e s e' h
        · exact ihDel beh st rest ht e s e' h
    · intro beh st es s e' h
      cases es with
      | nil => simp [publishList] at h
      | cons e rest =>
        simp only [publishList, List.mem_append] at h
        rcases h with h | h
        · exact ihPub beh st e s e' h
        · have hkey := ihPL beh (publishF beh fuel st e).1 rest s e' h
          rwa [(preserveAll fuel).1 beh st e |>.2] at hkey

/-! ## Characterisation of a single delivery (non-publishing handlers) -/

/-- The eligibility test of `_handle`: the subscriber's key has a
recorded timestamp and `subscriptionTime <= handleTime`. -/
def eligible (st : SState) (asOf : Nat) (t : EventType) (h : Subscriber) : Bool :=
  match alistGet st.subscriptionTimestamps (subscriptionKey t h) with
  | some ts => decide (ts ≤ asOf)
  | none => false

/-- The observers eligible for an event of type `t` delivered with
snapshot time `asOf` (the spec's `eligibleObservers(type, asOf)`): the
members of the type's subscriber set whose enrollment timestamp exists
and is at or before `asOf`. -/
def eligibleFor (st : SState) (asOf : Nat) (t : EventType) : List Subscriber :=
  match alistGet st.subscriptions t with
  | none => []
  | some handlers => handlers.filter (eligible st asOf t)

theorem publishList_nil (beh : Behavior) (fuel : Nat) (st : SState)
    (h : (publishList beh fuel st []).2.2 = true) :
    publishList beh fuel st [] = (st, [], true) := by
  cases fuel with
  | zero => simp [publishList] at h
  | succ fuel => rfl

theorem deliverAll_noPub (fuel : Nat) :
    ∀ st handlers ht e,
      (deliverAll noPublish fuel st handlers ht e).2.2 = true →
      deliverAll noPublish fuel st handlers ht e =
        (st, (handlers.filter (eligible st ht e.type)).map
          (fun s => TraceItem.invoke s e), true) := by
  induction fuel with
  | zero => intro st handlers ht e h; simp [deliverAll] at h
  | succ fuel ih =>
    intro st handlers ht e h
    cases handlers with
    | nil => simp [deliverAll]
    | cons handler rest =>
      simp only [deliverAll] at h ⊢
      rcases hmatch :
          alistGet st.subscriptionTimestamps (subscriptionKey e.type handler) with
        _ | subscriptionTime
      · simp only [hmatch] at h ⊢
        rw [ih st rest ht e h]
        simp [List.filter_cons, eligible, hmatch]
      · simp only [hmatch] at h ⊢
        by_cases hle : subscriptionTime ≤ ht
        · rw [if_pos hle] at h ⊢
          simp only [Bool.and_eq_true] at h
          have hpl := publishList_nil noPublish fuel st (by
            have := h.1
            simpa [noPublish] using this)
          have hnp : noPublish handler e = [] := rfl
          rw [hnp] at h ⊢
          rw [hpl] at h ⊢
          rw [ih st rest ht e h.2]
          simp [List.filter_cons, eligible, hmatch, hle]
        · rw [if_neg hle] at h ⊢
          rw [ih st rest ht e h]
          simp [List.filter_cons, eligible, hmatch, hle]

theorem handleEvent_noPub (fuel : Nat) (st : SState) (e : MEvent)
    (h : (handleEvent noPublish fuel st e).2.2 = true) :
    handleEvent noPublish fuel st e =
      ({ st with clock := st.clock + 1 },
       (eligibleFor st st.clock e.type).map (fun s => TraceItem.invoke s e),
       true) := by
  cases fuel with
  | zero => simp [handleEvent] at h
  | succ fuel =>
    simp only [handleEvent] at h ⊢
    rcases hmatch : alistGet st.subscriptions e.type with _ | handlers
    · simp only [hmatch] at h ⊢
      simp [eligibleFor, hmatch]
    · simp only [hmatch] at h ⊢
      rw [deliverAll_noPub fuel _ handlers st.clock e h]
      simp [eligibleFor, hmatch]
      rfl

theorem publishF_noPub (fuel : Nat) (st : SState) (e : MEvent)
    (hq : st.eventQueue.items = [])
    (hok : (publishF noPublish fuel st e).2.2 = true) :
    (publishF noPublish fuel st e).2.1 =
      TraceItem.enq e :: TraceItem.deliver e ::
        (eligibleFor st st.clock e.type).map (fun s => TraceItem.invoke s e) := by
  obtain ⟨subs, tss, ⟨items⟩, clk⟩ := st
  cases items with
  | cons _ _ => simp at hq
  | nil =>
    cases fuel with
    | zero => simp [publishF] at hok
    | succ fuel =>
      simp only [publishF, Queue.enqueue] at hok ⊢
      cases fuel with
      | zero => simp [processEvents] at hok
      | succ fuel =>
        simp only [processEvents, Queue.dequeue] at hok ⊢
        rw [Bool.and_eq_true] at hok
        have hH := handleEvent_noPub fuel ⟨subs, tss, ⟨[]⟩, clk⟩ e hok.1
        rw [hH] at hok ⊢
        cases fuel with
        | zero => simp [processEvents] at hok
        | succ fuel => simp [processEvents, Queue.dequeue]

/-! ## Registry well-formedness and `subscribe`/`unsubscribe` lemmas -/

/-- Invariant of every reachable service state: every recorded
enrollment timestamp lies strictly before the current clock, every
subscriber set is duplicate-free (it models a JS `Set`), and every
timestamp key belongs to an event type that has a subscriber-set entry. -/
def WF (st : SState) : Bool :=
  st.subscriptionTimestamps.all (fun kv => decide (kv.2 < st.clock)) &&
  (st.subscriptions.all (fun ts => decide ts.2.Nodup) &&
  st.subscriptionTimestamps.all (fun kv => (alistGet st.subscriptions kv.1.1).isSome))

theorem WF_ts_lt {st : SState} {k : EventType × String} {v : Nat}
    (hwf : WF st = true) (h : alistGet st.subscriptionTimestamps k = some v) :
    v < st.clock := by
  have hmem := alistGet_mem h
  simp only [WF, Bool.and_eq_true, List.all_eq_true] at hwf
  simpa using hwf.1 _ hmem

theorem WF_nodup {st : SState} {t : EventType} {l : List Subscriber}
    (hwf : WF st = true) (h : alistGet st.subscriptions t = some l) :
    l.Nodup := by
  have hmem := alistGet_mem h
  simp only [WF, Bool.and_eq_true, List.all_eq_true] at hwf
  simpa using hwf.2.1 _ hmem

theorem WF_key_subs {st : SState} {t : EventType} {str : String} {v : Nat}
    (hwf : WF st = true) (h : alistGet st.subscriptionTimestamps (t, str) = some v) :
    (alistGet st.subscriptions t).isSome = true := by
  have hmem := alistGet_mem h
  simp only [WF, Bool.and_eq_true, List.all_eq_true] at hwf
  simpa using hwf.2.2 _ hmem

/-- After `subscribe`, the type's subscriber set exists, contains the
handler, and (from a well-formed state) is duplicate-free. -/
theorem subscribe_subscriptions (st : SState) (t : EventType) (s : Subscriber) :
    ∃ l, alistGet (st.subscribe t s).subscriptions t = some l ∧ s ∈ l ∧
      (WF st = true → l.Nodup) := by
  unfold SState.subscribe
  rcases hget : alistGet st.subscriptions t with _ | subscribers
  · by_cases hts : (alistGet st.subscriptionTimestamps (subscriptionKey t s)).isSome
    · rw [if_pos hts]
      exact ⟨[s], by simpa using alistGet_alistSet_self st.subscriptions t [s],
        List.mem_singleton_self s, fun _ => List.nodup_singleton s⟩
    · rw [if_neg hts]
      exact ⟨[s], by simpa using alistGet_alistSet_self st.subscriptions t [s],
        List.mem_singleton_self s, fun _ => List.nodup_singleton s⟩
  · have hset : ∀ (l' : List Subscriber),
        alistGet (alistSet st.subscriptions t l') t = some l' :=
      fun l' => alistGet_alistSet_self st.subscriptions t l'
    by_cases hmem : s ∈ subscribers
    · by_cases hts : (alistGet st.subscriptionTimestamps (subscriptionKey t s)).isSome
      · rw [if_pos hts]
        refine ⟨subscribers, ?_, hmem, fun hwf => WF_nodup hwf hget⟩
        simpa [hmem] using hset (if s ∈ subscribers then subscribers else subscribers ++ [s])
      · rw [if_neg hts]
        refine ⟨subscribers, ?_, hmem, fun hwf => WF_nodup hwf hget⟩
        simpa [hmem] using hset (if s ∈ subscribers then subscribers else subscribers ++ [s])
    · have hnodup : WF st = true → (subscribers ++ [s]).Nodup := by
        intro hwf
        rw [List.nodup_append]
        exact ⟨WF_nodup hwf hget, List.nodup_singleton s, by simpa using hmem⟩
      by_cases hts : (alistGet st.subscriptionTimestamps (subscriptionKey t s)).isSome
      · rw [if_pos hts]
        refine ⟨subscribers ++ [s], ?_, by simp, hnodup⟩
        simpa [hmem] using hset (if s ∈ subscribers then subscribers else subscribers ++ [s])
      · rw [if_neg hts]
        refine ⟨subscribers ++ [s], ?_, by simp, hnodup⟩
        simpa [hmem] using hset (if s ∈ subscribers then subscribers else subscribers ++ [s])

/-- After `subscribe`, the handler's subscription key has a recorded
timestamp, and (from a well-formed state) it lies strictly before the
resulting clock. -/
theorem subscribe_key (st : SState) (t : EventType) (s : Subscriber) :
    ∃ v, alistGet (st.subscribe t s).subscriptionTimestamps (subscriptionKey t s) =
        some v ∧ (WF st = true → v < (st.subscribe t s).clock) := by
  unfold SState.subscribe
  by_cases hts : (alistGet st.subscriptionTimestamps (subscriptionKey t s)).isSome
  · rw [if_pos hts]
    obtain ⟨v, hv⟩ := Option.isSome_iff_exists.mp hts
    exact ⟨v, hv, fun hwf => @WF_ts_lt st _ _ hwf hv⟩
  · rw [if_neg hts]
    have hnone : alistGet st.subscriptionTimestamps (subscriptionKey t s) = none := by
      cases hcase : alistGet st.subscriptionTimestamps (subscriptionKey t s) with
      | none => rfl
      | some v => rw [hcase] at hts; simp at hts
    refine ⟨st.clock, ?_, fun _ => Nat.lt_succ_self st.clock⟩
    rw [alistGet_append_right _ hnone]
    simp [alistGet]

/-- `subscribe` never touches the event queue. -/
theorem subscribe_eventQueue (st : SState) (t : EventType) (s : Subscriber) :
    (st.subscribe t s).eventQueue = st.eventQueue := by
  unfold SState.subscribe
  dsimp only
  split <;> rfl

/-- Re-subscribing an already-enrolled handler (member of the set, key
present) has no observable effect at all. -/
theorem subscribe_of_present (st : SState) (t : EventType) (s : Subscriber)
    (l : List Subscriber) (hl : alistGet st.subscriptions t = some l)
    (hmem : s ∈ l)
    (hts : (alistGet st.subscriptionTimestamps (subscriptionKey t s)).isSome = true) :
    st.subscribe t s = st := by
  unfold SState.subscribe
  rw [hl]
  dsimp only
  rw [if_pos hmem, alistSet_of_get_eq hl, if_pos hts]

/-- `subscribe` is idempotent. -/
theorem subscribe_idem (st : SState) (t : EventType) (s : Subscriber) :
    (st.subscribe t s).subscribe t s = st.subscribe t s := by
  obtain ⟨l, hl, hmem, -⟩ := subscribe_subscriptions st t s
  obtain ⟨v, hv, -⟩ := subscribe_key st t s
  exact subscribe_of_present _ t s l hl hmem (by rw [hv]; rfl)

/-- `n` successive `subscribe(t, s)` calls. -/
def subscribeN (st : SState) (t : EventType) (s : Subscriber) : Nat → SState
  | 0 => st
  | Nat.succ n => (subscribeN st t s n).subscribe t s

theorem subscribeN_eq (st : SState) (t : EventType) (s : Subscriber) :
    ∀ n, 1 ≤ n → subscribeN st t s n = st.subscribe t s := by
  intro n hn
  induction n with
  | zero => omega
  | succ n ih =>
    cases n with
    | zero => rfl
    | succ m =>
      show (subscribeN st t s (m + 1)).subscribe t s = _
      rw [ih (by omega)]
      exact subscribe_idem st t s

theorem count_filter_of_pos {α : Type} [DecidableEq α] {p : α → Bool} {a : α}
    (l : List α) (h : p a = true) :
    (l.filter p).count a = l.count a := by
  induction l with
  | nil => rfl
  | cons x xs ih =>
    rcases hx : p x with _ | _
    · have hxa : x ≠ a := fun he => by rw [he, h] at hx; cases hx
      simp [List.filter_cons, hx, List.count_cons, hxa, ih]
    · simp [List.filter_cons, hx, List.count_cons, ih]

/-! ## Concrete scenario for the FIFO claim -/

/-- A sale subscriber instance (all instances of one subscriber class
share the `toString` value, the class name). -/
def subA : Subscriber := ⟨0, "MachineSaleSubscriber"⟩

def eW1 : MEvent := .sale "001" 1
def eW2 : MEvent := .sale "002" 1
def eW3 : MEvent := .sale "003" 1
def eW1a : MEvent := .lowStockWarning "001"

/-- Behaviour in which handling `eW1` publishes `eW1a` mid-handling and
nothing else publishes anything. -/
def behC2 : Behavior := fun s e => if s = subA ∧ e = eW1 then [eW1a] else []

/-- Service state with `subA` subscribed to `Sale`. -/
def stC2 : SState := SState.initial.subscribe .Sale subA

/-- C2: for every completed `publish` call, the delivered events are
exactly the pending events followed by all events enqueued during the
call, in FIFO enqueue order, and the queue is empty when the call
returns (so events enqueued by handlers inside the drain loop are
delivered before the outermost `publish` returns); in particular,
publishing E1, E2, E3 where E1's handler itself publishes E1a yields
delivery order E1, E1a, E2, E3. -/
theorem claim_C2 :
    (∀ beh fuel st e, (publishF beh fuel st e).2.2 = true →
      delivers (publishF beh fuel st e).2.1 =
        st.eventQueue.items ++ enqs (publishF beh fuel st e).2.1 ∧
      (publishF beh fuel st e).1.eventQueue.items = []) ∧
    ((publishList behC2 20 stC2 [eW1, eW2, eW3]).2.2 = true ∧
      delivers (publishList behC2 20 stC2 [eW1, eW2, eW3]).2.1 =
        [eW1, eW1a, eW2, eW3]) := by
  constructor
  · intro beh fuel st e h
    have hempty := publishF_ok_empty fuel beh st e h
    have hfifo := (fifoAll fuel).1 beh st e
    rw [hempty, List.append_nil] at hfifo
    exact ⟨hfifo.symm, hempty⟩
  · constructor
    · decide
    · decide

/-- Witness for C2: the completed scenario publish satisfies the FIFO
conclusion. -/
theorem claim_C2_witness :
    delivers (publishF behC2 20 stC2 eW1).2.1 =
      stC2.eventQueue.items ++ enqs (publishF behC2 20 stC2 eW1).2.1 ∧
    (publishF behC2 20 stC2 eW1).1.eventQueue.items = [] :=
  claim_C2.1 behC2 20 stC2 eW1 (by decide)

/-- C3: `subscribe` is idempotent: subscribing the same observer to the
same type `n ≥ 1` times leaves the registry state (subscriber set and
enrollment timestamp) identical to subscribing once, and a subsequently
published matching event (from an otherwise idle, well-formed service)
invokes that observer's `handle` exactly once, not `n` times. -/
theorem claim_C3 :
    (∀ st t s n, 1 ≤ n → subscribeN st t s n = st.subscribe t s) ∧
    (∀ st t s n e fuel, 1 ≤ n → WF st = true → st.eventQueue.items = [] →
      MEvent.type e = t →
      (publishF noPublish fuel (subscribeN st t s n) e).2.2 = true →
      ((publishF noPublish fuel (subscribeN st t s n) e).2.1).count
        (TraceItem.invoke s e) = 1) := by
  constructor
  · exact subscribeN_eq
  · intro st t s n e fuel hn hwf hq ht hok
    rw [subscribeN_eq st t s n hn] at hok ⊢
    have hq' : (st.subscribe t s).eventQueue.items = [] := by
      rw [subscribe_eventQueue]; exact hq
    rw [publishF_noPub fuel (st.subscribe t s) e hq' hok]
    obtain ⟨l, hl, hmem, hnodup⟩ := subscribe_subscriptions st t s
    obtain ⟨v, hv, hvlt⟩ := subscribe_key st t s
    have helig : eligible (st.subscribe t s) (st.subscribe t s).clock t s = true := by
      unfold eligible
      rw [hv]
      simp [Nat.le_of_lt (hvlt hwf)]
    have hfe : eligibleFor (st.subscribe t s) (st.subscribe t s).clock (MEvent.type e) =
        l.filter (eligible (st.subscribe t s) (st.subscribe t s).clock t) := by
      rw [ht]
      unfold eligibleFor
      rw [hl]
    rw [hfe]
    have hinj : Function.Injective (fun x : Subscriber => TraceItem.invoke x e) := by
      intro a b hab
      exact (TraceItem.invoke.inj hab).1
    have hrest :
        (TraceItem.enq e :: TraceItem.deliver e ::
          (l.filter (eligible (st.subscribe t s) (st.subscribe t s).clock t)).map
            (fun x => TraceItem.invoke x e)).count (TraceItem.invoke s e) =
        ((l.filter (eligible (st.subscribe t s) (st.subscribe t s).clock t)).map
            (fun x => TraceItem.invoke x e)).count (TraceItem.invoke s e) := by
      simp [List.count_cons]
    rw [hrest, List.count_map_of_injective _ _ hinj s,
      count_filter_of_pos _ helig,
      List.count_eq_one_of_mem (hnodup hwf) hmem]

/-- Witness for C3: triple-subscribing a sale subscriber equals a single
subscribe, and a published Sale event invokes it exactly once. -/
theorem claim_C3_witness :
    subscribeN SState.initial .Sale subA 3 = SState.initial.subscribe .Sale subA ∧
    ((publishF noPublish 10 (subscribeN SState.initial .Sale subA 3) eW1).2.1).count
      (TraceItem.invoke subA eW1) = 1 :=
  ⟨claim_C3.1 SState.initial .Sale subA 3 (by decide),
   claim_C3.2 SState.initial .Sale subA 3 eW1 10 (by decide) (by decide) rfl rfl
     (by decide)⟩

/-- C4: for a dequeued event, `_handle` captures one snapshot time and
invokes exactly the observers of the event type's set whose enrollment
timestamp exists and is at or before that snapshot (stated for
non-publishing handlers so the delivery of the single event is
isolated); and an observer with no recorded enrollment key is never
invoked anywhere in a `publish` call, so an observer that subscribes
only after an event was fully drained was not invoked for it. -/
theorem claim_C4 :
    (∀ fuel st e, (handleEvent noPublish fuel st e).2.2 = true →
      (handleEvent noPublish fuel st e).2.1 =
        (eligibleFor st st.clock (MEvent.type e)).map
          (fun s => TraceItem.invoke s e) ∧
      (handleEvent noPublish fuel st e).1 = { st with clock := st.clock + 1 }) ∧
    (∀ beh fuel st e s,
      (∀ t, alistGet st.subscriptionTimestamps (t, s.str) = none) →
      ∀ e', TraceItem.invoke s e' ∉ (publishF beh fuel st e).2.1) := by
  constructor
  · intro fuel st e hok
    have h := handleEvent_noPub fuel st e hok
    exact ⟨by rw [h], by rw [h]⟩
  · intro beh fuel st e s hkeys e' hmem
    have hk := (invokeKeyAll fuel).1 beh st e s e' hmem
    have : subscriptionKey (MEvent.type e') s = (MEvent.type e', s.str) := rfl
    rw [this, hkeys (MEvent.type e')] at hk
    cases hk

/-- Witness for C4 at concrete states: the eligible-observer equation
for a completed delivery, and a never-enrolled observer receiving
nothing from a publish. -/
theorem claim_C4_witness :
    (handleEvent noPublish 5 stC2 eW1).2.1 =
      (eligibleFor stC2 stC2.clock (MEvent.type eW1)).map
        (fun s => TraceItem.invoke s eW1) ∧
    TraceItem.invoke (Subscriber.mk 7 "X") eW1 ∉
      (publishF noPublish 5 stC2 eW1).2.1 :=
  ⟨(claim_C4.1 5 stC2 eW1 (by decide)).1,
   claim_C4.2 noPublish 5 stC2 eW1 (Subscriber.mk 7 "X")
     (fun t => by cases t <;> rfl) eW1⟩

/-! ## `unsubscribe` lemmas -/

/-- The branch of `unsubscribe` taken when the type has a subscriber
set. -/
theorem unsubscribe_eq_of_get (st : SState) (t : EventType) (s : Subscriber)
    (l : List Subscriber) (hget : alistGet st.subscriptions t = some l) :
    st.unsubscribe t s = { st with
      subscriptions := alistSet st.subscriptions t (l.erase s),
      subscriptionTimestamps :=
        alistErase st.subscriptionTimestamps (subscriptionKey t s) } := by
  unfold SState.unsubscribe
  simp only [hget]

/-- Unsubscribing an observer that is not enrolled (absent from the set
and without a timestamp key) changes nothing. -/
theorem unsubscribe_noop (st : SState) (t : EventType) (s : Subscriber)
    (hset : ∀ l, alistGet st.subscriptions t = some l → s ∉ l)
    (hkey : alistGet st.subscriptionTimestamps (subscriptionKey t s) = none) :
    st.unsubscribe t s = st := by
  unfold SState.unsubscribe
  rcases hget : alistGet st.subscriptions t with _ | l
  · simp only [hget]
  · simp only [hget]
    rw [List.erase_of_not_mem (hset l hget), alistSet_of_get_eq hget,
      alistErase_of_get_none hkey]

/-- After `unsubscribe`, the observer is un-enrolled: it is not in the
type's subscriber set and its timestamp key is gone. -/
theorem unsubscribe_unenrolled (st : SState) (t : EventType) (s : Subscriber)
    (hwf : WF st = true) :
    (∀ l, alistGet (st.unsubscribe t s).subscriptions t = some l → s ∉ l) ∧
    alistGet (st.unsubscribe t s).subscriptionTimestamps (subscriptionKey t s) =
      none := by
  rcases hget : alistGet st.subscriptions t with _ | l
  · have hst : st.unsubscribe t s = st := by
      unfold SState.unsubscribe
      simp only [hget]
    rw [hst]
    have hkey : alistGet st.subscriptionTimestamps (subscriptionKey t s) = none := by
      rcases hts : alistGet st.subscriptionTimestamps (subscriptionKey t s) with _ | v
      · rfl
      · have := WF_key_subs hwf hts
        rw [hget] at this
        cases this
    refine ⟨fun l' hl' => ?_, hkey⟩
    rw [hget] at hl'
    cases hl'
  · rw [unsubscribe_eq_of_get st t s l hget]
    dsimp only
    refine ⟨fun l' hl' => ?_, alistGet_alistErase_self _ _⟩
    rw [alistGet_alistSet_self] at hl'
    injection hl' with hl'
    subst hl'
    intro hmem
    exact ((List.Nodup.mem_erase_iff (WF_nodup hwf hget)).mp hmem).1 rfl

/-- `unsubscribe` is idempotent on well-formed states. -/
theorem unsubscribe_idem (st : SState) (t : EventType) (s : Subscriber)
    (hwf : WF st = true) :
    (st.unsubscribe t s).unsubscribe t s = st.unsubscribe t s := by
  obtain ⟨hset, hkey⟩ := unsubscribe_unenrolled st t s hwf
  exact unsubscribe_noop _ t s hset hkey

/-- `n` successive `unsubscribe(t, s)` calls. -/
def unsubscribeN (st : SState) (t : EventType) (s : Subscriber) : Nat → SState
  | 0 => st
  | Nat.succ n => (unsubscribeN st t s n).unsubscribe t s

theorem unsubscribeN_eq (st : SState) (t : EventType) (s : Subscriber)
    (hwf : WF st = true) :
    ∀ n, 1 ≤ n → unsubscribeN st t s n = st.unsubscribe t s := by
  intro n hn
  induction n with
  | zero => omega
  | succ n ih =>
    cases n with
    | zero => rfl
    | succ m =>
      show (unsubscribeN st t s (m + 1)).unsubscribe t s = _
      rw [ih (by omega)]
      exact unsubscribe_idem st t s hwf

/-- C5: `unsubscribe` is idempotent and total (the embedding is a total
function, mirroring that the source never throws): unsubscribing an
observer that is not enrolled is a no-op, unsubscribing `n > 1` times
equals unsubscribing once, and after any unsubscribe (from a well-formed
state) the observer is un-enrolled and is never invoked for any
subsequently published event of that type. -/
theorem claim_C5 :
    (∀ (st : SState) (t : EventType) (s : Subscriber),
      (∀ l, alistGet st.subscriptions t = some l → s ∉ l) →
      alistGet st.subscriptionTimestamps (subscriptionKey t s) = none →
      st.unsubscribe t s = st) ∧
    (∀ (st : SState) (t : EventType) (s : Subscriber) (n : Nat),
      1 ≤ n → WF st = true →
      unsubscribeN st t s n = st.unsubscribe t s) ∧
    (∀ (st : SState) (t : EventType) (s : Subscriber), WF st = true →
      (∀ l, alistGet (st.unsubscribe t s).subscriptions t = some l → s ∉ l) ∧
      alistGet (st.unsubscribe t s).subscriptionTimestamps (subscriptionKey t s) =
        none ∧
      (∀ beh fuel e e', MEvent.type e' = t →
        TraceItem.invoke s e' ∉ (publishF beh fuel (st.unsubscribe t s) e).2.1)) := by
  refine ⟨fun st t s hset hkey => unsubscribe_noop st t s hset hkey,
    fun st t s n hn hwf => unsubscribeN_eq st t s hwf n hn,
    fun st t s hwf => ?_⟩
  obtain ⟨hset, hkey⟩ := unsubscribe_unenrolled st t s hwf
  refine ⟨hset, hkey, fun beh fuel e e' ht' hmem => ?_⟩
  have hk := (invokeKeyAll fuel).1 beh (st.unsubscribe t s) e s e' hmem
  rw [show subscriptionKey (MEvent.type e') s = subscriptionKey t s from by rw [ht'],
    hkey] at hk
  cases hk

/-- Witness for C5 on concrete states: unsubscribing from the fresh
service is a no-op, triple-unsubscribe equals single unsubscribe, and
the unsubscribed observer's key is gone. -/
theorem claim_C5_witness :
    SState.initial.unsubscribe .Sale subA = SState.initial ∧
    unsubscribeN stC2 .Sale subA 3 = stC2.unsubscribe .Sale subA ∧
    alistGet (stC2.unsubscribe .Sale subA).subscriptionTimestamps
      (subscriptionKey .Sale subA) = none := by
  refine ⟨claim_C5.1 SState.initial .Sale subA (fun l h => by cases h) rfl,
    claim_C5.2.1 stC2 .Sale subA 3 (by decide) (by decide),
    (claim_C5.2.2 stC2 .Sale subA (by decide)).2.1⟩

/-- When the subscription key already has a timestamp, `subscribe`
records nothing new. -/
theorem subscribe_timestamps_of_key_present (st : SState) (t : EventType)
    (s : Subscriber)
    (h : (alistGet st.subscriptionTimestamps (subscriptionKey t s)).isSome = true) :
    (st.subscribe t s).subscriptionTimestamps = st.subscriptionTimestamps := by
  unfold SState.subscribe
  dsimp only
  rw [if_pos h]

/-- C9: subscription identity is keyed by the pair (event type,
`toString()` value): two distinct observer instances with equal
`toString()` subscribed to the same type share a single
enrollment-timestamp entry (the second subscribe records nothing);
unsubscribing one of them deletes that shared entry, after which the
other — though still present in the subscriber set — is never invoked
for subsequently published events of that type. -/
theorem claim_C9 (st : SState) (t : EventType) (s1 s2 : Subscriber)
    (hne : s1 ≠ s2) (hstr : s1.str = s2.str) :
    ((st.subscribe t s1).subscribe t s2).subscriptionTimestamps =
      (st.subscribe t s1).subscriptionTimestamps ∧
    (∃ v, alistGet ((st.subscribe t s1).subscribe t s2).subscriptionTimestamps
        (subscriptionKey t s2) = some v) ∧
    (∃ l, alistGet
        ((((st.subscribe t s1).subscribe t s2).unsubscribe t s1)).subscriptions t =
        some l ∧ s2 ∈ l) ∧
    alistGet ((((st.subscribe t s1).subscribe t s2).unsubscribe t s1)).subscriptionTimestamps
      (subscriptionKey t s2) = none ∧
    (∀ beh fuel e e', MEvent.type e' = t →
      TraceItem.invoke s2 e' ∉
        (publishF beh fuel
          ((((st.subscribe t s1).subscribe t s2).unsubscribe t s1)) e).2.1) := by
  have hkeq : subscriptionKey t s2 = subscriptionKey t s1 := by
    simp [subscriptionKey, hstr]
  obtain ⟨v1, hv1, -⟩ := subscribe_key st t s1
  have hts2 : (alistGet (st.subscribe t s1).subscriptionTimestamps
      (subscriptionKey t s2)).isSome = true := by
    rw [hkeq, hv1]
    rfl
  have hconj1 := subscribe_timestamps_of_key_present (st.subscribe t s1) t s2 hts2
  obtain ⟨lB, hlB, hs2mem, -⟩ := subscribe_subscriptions (st.subscribe t s1) t s2
  have hC := unsubscribe_eq_of_get ((st.subscribe t s1).subscribe t s2) t s1 lB hlB
  refine ⟨hconj1, ⟨v1, ?_⟩, ⟨lB.erase s1, ?_, ?_⟩, ?_, ?_⟩
  · rw [hconj1, hkeq]
    exact hv1
  · rw [hC]
    exact alistGet_alistSet_self _ _ _
  · exact (List.mem_erase_of_ne (Ne.symm hne)).mpr hs2mem
  · rw [hC]
    dsimp only
    rw [hkeq]
    exact alistGet_alistErase_self _ _
  · intro beh fuel e e' ht' hmem
    have hk := (invokeKeyAll fuel).1 beh _ e s2 e' hmem
    rw [hC] at hk
    dsimp only at hk
    rw [show subscriptionKey (MEvent.type e') s2 = subscriptionKey t s2 from
        by rw [ht'], hkeq, alistGet_alistErase_self] at hk
    cases hk

/-- Witness for C9 at two concrete instances sharing `toString()`. -/
theorem claim_C9_witness :
    ((SState.initial.subscribe .Sale ⟨0, "A"⟩).subscribe .Sale ⟨1, "A"⟩).subscriptionTimestamps =
      (SState.initial.subscribe .Sale ⟨0, "A"⟩).subscriptionTimestamps ∧
    TraceItem.invoke ⟨1, "A"⟩ eW1 ∉
      (publishF noPublish 5
        (((SState.initial.subscribe .Sale ⟨0, "A"⟩).subscribe .Sale ⟨1, "A"⟩).unsubscribe
          .Sale ⟨0, "A"⟩) eW1).2.1 := by
  have h := claim_C9 SState.initial .Sale ⟨0, "A"⟩ ⟨1, "A"⟩ (by decide) rfl
  exact ⟨h.1, h.2.2.2.2 noPublish 5 eW1 eW1 rfl⟩
